import Mathlib

/-!
Verification of the symbolic expression engine and function-plotting pipeline
of the Desmos-Draw repository, shallowly embedded from the TypeScript source
(the `expressions.ts` and `draw.ts` regions of the main source file).

Modelling conventions:
* JavaScript numbers are modelled as rationals (`ℚ`); the engine performs only
  field arithmetic, comparisons and `Math.sqrt`, and never divides by zero
  (the zero-divisor case is folded to the undefined constant before dividing).
* `Math.sqrt` is kept abstract as a parameter `sq : ℚ → ℚ`; the source only
  applies it to non-negative operands (`PrincipalSqrt.simplify` guards with
  `value < 0`).
* A `Value` node's `number | undefined` payload is `Option ℚ` (`none` is the
  undefined constant `Value.UNDEFINED`).
* Substitution records (`Record<string, Expression>`): every call site in the
  program builds either the empty record or `{ [v]: new Value(number) }`
  (see `MathFunctionGraphic`), i.e. variables are only ever bound to `Value`
  nodes.  The map is therefore modelled as a function from names to optional
  `Value` payloads.  (With bindings to arbitrary expression trees the source's
  `Sqrt.simplify` can recurse forever, so no total function can model it.)
-/

namespace DesmosDraw

/-- `Extent` from the numbers.ts region: a `[min, max]` interval whose
constructor sorts the two endpoints (`bi_sort`). -/
structure Extent where
  min : ℚ
  max : ℚ
deriving DecidableEq, Repr

/-- The `Extent` constructor: `[a, b] = bi_sort(a, b)` with
`bi_sort(a, b) = a < b ? [a, b] : [b, a]`. -/
def Extent.make (a b : ℚ) : Extent :=
  if a < b then ⟨a, b⟩ else ⟨b, a⟩

/-- `Extent.contains`: `value >= this.min && value <= this.max`. -/
def Extent.contains (e : Extent) (v : ℚ) : Bool :=
  decide (e.min ≤ v) && decide (v ≤ e.max)

/-- The expression tree: one constructor per concrete node class of the
source (`Variable`, `Value`, `Add`, `Divide`, `RestrictTo`, `PrincipalSqrt`,
`Sqrt`).  `Subtract` and `Multiply` are derived constructions (see
`Multiply`/`Subtract` below), exactly as in the source where their classes
only rewrite their constructor arguments into `Add`/`Divide` shapes. -/
inductive Expression : Type where
  | Variable : String → Expression
  | Value : Option ℚ → Expression
  | Add : Expression → Expression → Expression
  | Divide : Expression → Expression → Expression
  | RestrictTo : Expression → Extent → Expression
  | PrincipalSqrt : Expression → Expression
  | Sqrt : Expression → Expression
deriving DecidableEq, Repr

/-- `Value.UNDEFINED`. -/
def undefinedValue : Expression := .Value none

/-- `Value.ONE`. -/
def oneValue : Expression := .Value (some 1)

/-- `Value.NEGATIVE_ONE`. -/
def negativeOneValue : Expression := .Value (some (-1))

/-- The `Multiply` class: `constructor(a, b) { super(a, new Divide(Value.ONE, b)) }`,
i.e. `Multiply(a, b)` is the tree `Divide(a, Divide(Value.ONE, b))`. -/
def Multiply (a b : Expression) : Expression :=
  .Divide a (.Divide oneValue b)

/-- `Multiply.square`: `new Multiply(expression, expression)`. -/
def Multiply.square (e : Expression) : Expression := Multiply e e

/-- The `Subtract` class: `constructor(a, b) { super(a, new Multiply(b, Value.NEGATIVE_ONE)) }`,
i.e. `Subtract(a, b)` is the tree `Add(a, Multiply(b, Value.NEGATIVE_ONE))`. -/
def Subtract (a b : Expression) : Expression :=
  .Add a (Multiply b negativeOneValue)

/-- `variables()`: the set of free variable names of a subtree.  `Variable`
contributes its own name, `Value` nothing, binary operators the union of
their children, `RestrictTo`/`PrincipalSqrt`/`Sqrt` their operand's set. -/
def Expression.variables : Expression → Finset String
  | .Variable n => {n}
  | .Value _ => ∅
  | .Add a b => a.variables ∪ b.variables
  | .Divide a b => a.variables ∪ b.variables
  | .RestrictTo v _ => v.variables
  | .PrincipalSqrt v => v.variables
  | .Sqrt v => v.variables

/-- Number of `Sqrt` nodes in a tree (used as the termination measure of
`simplifyAux`: simplified results never contain a `Sqrt` node). -/
def sqrtCount : Expression → Nat
  | .Variable _ => 0
  | .Value _ => 0
  | .Add a b => sqrtCount a + sqrtCount b
  | .Divide a b => sqrtCount a + sqrtCount b
  | .RestrictTo v _ => sqrtCount v
  | .PrincipalSqrt v => sqrtCount v
  | .Sqrt v => sqrtCount v + 1

/-- Node count of a tree (secondary termination measure). -/
def esize : Expression → Nat
  | .Variable _ => 1
  | .Value _ => 1
  | .Add a b => esize a + esize b + 1
  | .Divide a b => esize a + esize b + 1
  | .RestrictTo v _ => esize v + 1
  | .PrincipalSqrt v => esize v + 1
  | .Sqrt v => esize v + 1

/-- The inner fold of `Add.simplify`: if both candidates are `Value`s, fold
(undefined absorbs), otherwise rebuild an `Add` node. -/
def addOp : Expression → Expression → Expression
  | .Value (some av), .Value (some bv) => .Value (some (av + bv))
  | .Value _, .Value _ => .Value none
  | a, b => .Add a b

/-- The inner fold of `Divide.simplify`: if both candidates are `Value`s,
fold (undefined operands or a zero divisor give undefined), otherwise
rebuild a `Divide` node. -/
def divOp : Expression → Expression → Expression
  | .Value (some av), .Value (some bv) =>
    if bv = 0 then .Value none else .Value (some (av / bv))
  | .Value _, .Value _ => .Value none
  | a, b => .Divide a b

/-- The inner fold of `PrincipalSqrt.simplify`:
`new Value((value === undefined || value < 0) ? undefined : Math.sqrt(value))`
for a `Value` candidate, otherwise rebuild a `PrincipalSqrt` node. -/
def psqrtOp (sq : ℚ → ℚ) : Expression → Expression
  | .Value none => .Value none
  | .Value (some x) => if x < 0 then .Value none else .Value (some (sq x))
  | e => .PrincipalSqrt e

/-- The inner fold of `RestrictTo.simplify`: an undefined `Value` stays
undefined, a defined `Value` is kept iff the stored range contains it,
anything else is re-wrapped in a `RestrictTo` with the same range. -/
def restrictOp (range : Extent) : Expression → Expression
  | .Value none => .Value none
  | .Value (some x) => if range.contains x then .Value (some x) else .Value none
  | e => .RestrictTo e range

theorem sqrtCount_addOp {a b : Expression} (ha : sqrtCount a = 0)
    (hb : sqrtCount b = 0) : sqrtCount (addOp a b) = 0 := by
  unfold addOp
  split
  · rfl
  · rfl
  · simp [sqrtCount, ha, hb]

theorem sqrtCount_divOp {a b : Expression} (ha : sqrtCount a = 0)
    (hb : sqrtCount b = 0) : sqrtCount (divOp a b) = 0 := by
  unfold divOp
  split
  · split <;> rfl
  · rfl
  · simp [sqrtCount, ha, hb]

theorem sqrtCount_psqrtOp {sq : ℚ → ℚ} {a : Expression} (ha : sqrtCount a = 0) :
    sqrtCount (psqrtOp sq a) = 0 := by
  unfold psqrtOp
  split
  · rfl
  · split <;> rfl
  · simp [sqrtCount, ha]

theorem sqrtCount_restrictOp {range : Extent} {a : Expression}
    (ha : sqrtCount a = 0) : sqrtCount (restrictOp range a) = 0 := by
  unfold restrictOp
  split
  · rfl
  · split <;> rfl
  · simp [sqrtCount, ha]

/-- A simplification result: an expression with no `Sqrt` node.  Every
candidate produced by `simplify` is of this shape (only `Sqrt.simplify`
consumes `Sqrt` nodes and it never re-emits one). -/
def Simplified : Type := {e : Expression // sqrtCount e = 0}

/-- A substitution record.  See the file docstring: variables are only ever
bound to `Value` payloads in this program. -/
def Subst : Type := String → Option (Option ℚ)

/-- The empty substitution record `{}`. -/
def emptySubst : Subst := fun _ => none

/-- The one-entry record `{ [v]: new Value(payload) }` built by
`MathFunctionGraphic.draw`. -/
def bindVar (v : String) (payload : Option ℚ) : Subst :=
  fun n => if n = v then some payload else none

theorem prodLex_of_le_of_lt {a₁ a₂ b₁ b₂ : Nat} (h₁ : a₁ ≤ a₂) (h₂ : b₁ < b₂) :
    Prod.Lex (· < ·) (· < ·) (a₁, b₁) (a₂, b₂) := by
  rcases Nat.lt_or_ge a₁ a₂ with h | h
  · exact Prod.Lex.left _ _ h
  · have hEq : a₁ = a₂ := Nat.le_antisymm h₁ h
    subst hEq
    exact Prod.Lex.right _ h₂

theorem prodLex_of_lt {a₁ a₂ b₁ b₂ : Nat} (h₁ : a₁ < a₂) :
    Prod.Lex (· < ·) (· < ·) (a₁, b₁) (a₂, b₂) :=
  Prod.Lex.left _ _ h₁

/-- `simplify`, one recursive function dispatching on the node type, exactly
mirroring the per-class `simplify` methods of the source:
* `Variable`: yield the bound payload as a `Value` if the name is bound,
  else yield the node itself;
* `Value`: yield the node itself;
* `Add`/`Divide`: simplify both children and fold the Cartesian product of
  the two candidate lists with `addOp`/`divOp`;
* `RestrictTo`/`PrincipalSqrt`: simplify the operand and map
  `restrictOp`/`psqrtOp` over the candidates;
* `Sqrt`: `super.simplify(substitutions)` (the `PrincipalSqrt` treatment of
  the same operand), then for each candidate `s` also yield the candidates of
  `new Multiply(s, Value.NEGATIVE_ONE).simplify(substitutions)`, where
  `Multiply(s, NEGATIVE_ONE)` is `Divide(s, Divide(ONE, NEGATIVE_ONE))`.
Each candidate carries the proof that it contains no `Sqrt` node, which
bounds the nested re-simplification in the `Sqrt` case. -/
def simplifyAux (sq : ℚ → ℚ) : Expression → Subst → List Simplified
  | .Variable n, subs =>
    match subs n with
    | some payload => [⟨.Value payload, rfl⟩]
    | none => [⟨.Variable n, rfl⟩]
  | .Value v, _ => [⟨.Value v, rfl⟩]
  | .Add a b, subs =>
    (simplifyAux sq a subs).flatMap fun x =>
      (simplifyAux sq b subs).map fun y => ⟨addOp x.1 y.1, sqrtCount_addOp x.2 y.2⟩
  | .Divide a b, subs =>
    (simplifyAux sq a subs).flatMap fun x =>
      (simplifyAux sq b subs).map fun y => ⟨divOp x.1 y.1, sqrtCount_divOp x.2 y.2⟩
  | .RestrictTo v range, subs =>
    (simplifyAux sq v subs).map fun x => ⟨restrictOp range x.1, sqrtCount_restrictOp x.2⟩
  | .PrincipalSqrt v, subs =>
    (simplifyAux sq v subs).map fun x => ⟨psqrtOp sq x.1, sqrtCount_psqrtOp x.2⟩
  | .Sqrt v, subs =>
    (simplifyAux sq (.PrincipalSqrt v) subs).flatMap fun s =>
      s :: simplifyAux sq (.Divide s.1 (.Divide oneValue negativeOneValue)) subs
termination_by e _subs => (sqrtCount e, esize e)
decreasing_by
  all_goals
    first
      | exact prodLex_of_lt (by
          have hs := s.2
          simp only [sqrtCount, oneValue, negativeOneValue]
          omega)
      | exact prodLex_of_lt (by simp only [sqrtCount]; omega)
      | exact prodLex_of_le_of_lt (by simp only [sqrtCount]; omega)
          (by simp only [esize]; omega)

/-- `simplify(substitutions)` of the source, returning plain expressions. -/
def simplify (sq : ℚ → ℚ) (e : Expression) (subs : Subst) : List Expression :=
  (simplifyAux sq e subs).map Subtype.val

theorem simplify_variable (sq : ℚ → ℚ) (n : String) (subs : Subst) :
    simplify sq (.Variable n) subs =
      match subs n with
      | some payload => [.Value payload]
      | none => [.Variable n] := by
  unfold simplify
  rw [simplifyAux]
  cases subs n <;> simp

theorem simplify_value (sq : ℚ → ℚ) (v : Option ℚ) (subs : Subst) :
    simplify sq (.Value v) subs = [.Value v] := by
  unfold simplify
  rw [simplifyAux]
  simp

theorem simplify_add (sq : ℚ → ℚ) (a b : Expression) (subs : Subst) :
    simplify sq (.Add a b) subs =
      (simplify sq a subs).flatMap fun x =>
        (simplify sq b subs).map fun y => addOp x y := by
  unfold simplify
  rw [simplifyAux]
  simp only [List.map_flatMap, List.flatMap_map, List.map_map, List.map_cons]
  rfl

theorem simplify_divide (sq : ℚ → ℚ) (a b : Expression) (subs : Subst) :
    simplify sq (.Divide a b) subs =
      (simplify sq a subs).flatMap fun x =>
        (simplify sq b subs).map fun y => divOp x y := by
  unfold simplify
  rw [simplifyAux]
  simp only [List.map_flatMap, List.flatMap_map, List.map_map, List.map_cons]
  rfl

theorem simplify_restrictTo (sq : ℚ → ℚ) (v : Expression) (range : Extent)
    (subs : Subst) :
    simplify sq (.RestrictTo v range) subs =
      (simplify sq v subs).map (restrictOp range) := by
  unfold simplify
  rw [simplifyAux]
  simp only [List.map_map]
  rfl

theorem simplify_principalSqrt (sq : ℚ → ℚ) (v : Expression) (subs : Subst) :
    simplify sq (.PrincipalSqrt v) subs =
      (simplify sq v subs).map (psqrtOp sq) := by
  unfold simplify
  rw [simplifyAux]
  simp only [List.map_map]
  rfl

theorem simplify_sqrt (sq : ℚ → ℚ) (v : Expression) (subs : Subst) :
    simplify sq (.Sqrt v) subs =
      (simplify sq (.PrincipalSqrt v) subs).flatMap fun s =>
        s :: simplify sq (.Divide s (.Divide oneValue negativeOneValue)) subs := by
  unfold simplify
  conv =>
    lhs
    rw [simplifyAux]
  simp only [List.map_flatMap, List.flatMap_map, List.map_map, List.map_cons]
  rfl

/-- No `simplify` result list is empty (each case of `simplifyAux` yields at
least one candidate from at least one candidate per child). -/
theorem simplifyAux_ne_nil (sq : ℚ → ℚ) (e : Expression) (subs : Subst) :
    simplifyAux sq e subs ≠ [] := by
  induction e, subs using simplifyAux.induct sq with
  | case1 n subs payload hp =>
    rw [simplifyAux, hp]
    simp
  | case2 n subs hp =>
    rw [simplifyAux, hp]
    simp
  | case3 v subs =>
    rw [simplifyAux]
    simp
  | case4 a b subs iha ihb =>
    rw [simplifyAux]
    rw [ne_eq, List.flatMap_eq_nil_iff]
    intro hall
    obtain ⟨x, hx⟩ := List.exists_mem_of_ne_nil _ iha
    exact ihb (List.map_eq_nil_iff.mp (hall x hx))
  | case5 a b subs iha ihb =>
    rw [simplifyAux]
    rw [ne_eq, List.flatMap_eq_nil_iff]
    intro hall
    obtain ⟨x, hx⟩ := List.exists_mem_of_ne_nil _ iha
    exact ihb (List.map_eq_nil_iff.mp (hall x hx))
  | case6 v range subs ihv =>
    rw [simplifyAux]
    simpa using ihv
  | case7 v subs ihv =>
    rw [simplifyAux]
    simpa using ihv
  | case8 v subs ihp ihnest =>
    rw [simplifyAux]
    rw [ne_eq, List.flatMap_eq_nil_iff]
    intro hall
    obtain ⟨s, hs⟩ := List.exists_mem_of_ne_nil _ ihp
    simpa using hall s hs

/-- C1: for every expression tree (over all node types, the derived
`Subtract`/`Multiply` shapes included) and every substitution map,
`simplify` returns a non-empty candidate list. -/
theorem c1_simplify_nonempty (sq : ℚ → ℚ) (e : Expression) (subs : Subst) :
    1 ≤ (simplify sq e subs).length := by
  have h := simplifyAux_ne_nil sq e subs
  unfold simplify
  rw [List.length_map]
  exact Nat.one_le_iff_ne_zero.mpr fun h0 => h (List.eq_nil_of_length_eq_zero h0)

/-- C3: dividing any numeric constant by the constant zero simplifies, under
the empty substitution map, to exactly one candidate: the undefined constant. -/
theorem c3_divide_by_zero (sq : ℚ → ℚ) (a : ℚ) :
    simplify sq (.Divide (.Value (some a)) (.Value (some 0))) emptySubst =
      [undefinedValue] := by
  rw [simplify_divide, simplify_value, simplify_value]
  simp [divOp, undefinedValue]

/-- C4: `Sqrt(Value(4))` simplifies under the empty substitution map to
exactly the two candidates `Value(2)` and `Value(-2)` (in this order:
principal root first, then its negation), given that `Math.sqrt(4) = 2`. -/
theorem c4_sqrt_four_two_candidates (sq : ℚ → ℚ) (hsq : sq 4 = 2) :
    simplify sq (.Sqrt (.Value (some 4))) emptySubst =
      [.Value (some 2), .Value (some (-2))] := by
  rw [simplify_sqrt, simplify_principalSqrt, simplify_value]
  norm_num [psqrtOp, hsq, simplify_divide, simplify_value, divOp, oneValue,
    negativeOneValue]

/-- The square-root function used for concrete witness runs (only its values
at the perfect squares exercised by the witnesses matter). -/
def sqTwo : ℚ → ℚ := fun q => if q = 4 then 2 else 0

/-- Witness for C4 at the concrete square-root function `sqTwo`. -/
theorem c4_witness :
    sqTwo 4 = 2 ∧
      simplify sqTwo (.Sqrt (.Value (some 4))) emptySubst =
        [.Value (some 2), .Value (some (-2))] :=
  ⟨by norm_num [sqTwo], c4_sqrt_four_two_candidates sqTwo (by norm_num [sqTwo])⟩

/-- C5: `PrincipalSqrt` of any negative numeric constant simplifies, under
the empty substitution map, to exactly one candidate: the undefined
constant. -/
theorem c5_principal_sqrt_negative (sq : ℚ → ℚ) (c : ℚ) (hc : c < 0) :
    simplify sq (.PrincipalSqrt (.Value (some c))) emptySubst =
      [undefinedValue] := by
  rw [simplify_principalSqrt, simplify_value]
  simp [psqrtOp, hc, undefinedValue]

/-- Witness for C5 at the operand `Value(-1)` named by the claim. -/
theorem c5_witness :
    (-1 : ℚ) < 0 ∧
      simplify sqTwo (.PrincipalSqrt (.Value (some (-1)))) emptySubst =
        [undefinedValue] :=
  ⟨by norm_num, c5_principal_sqrt_negative sqTwo (-1) (by norm_num)⟩

/-- C6: the `Extent` constructor sorts its two arguments (so the stored range
always satisfies `min ≤ max`), and `RestrictTo` of a numeric constant over
that range simplifies under the empty substitution map to exactly one
candidate: the constant itself when it lies within the inclusive range,
and the undefined constant otherwise. -/
theorem c6_restrict_to_range (sq : ℚ → ℚ) (a b c : ℚ) :
    (Extent.make a b).min = min a b ∧
    (Extent.make a b).max = max a b ∧
    (Extent.make a b).min ≤ (Extent.make a b).max ∧
    simplify sq (.RestrictTo (.Value (some c)) (Extent.make a b)) emptySubst =
      [if min a b ≤ c ∧ c ≤ max a b then .Value (some c) else undefinedValue] := by
  have hmake : Extent.make a b = ⟨min a b, max a b⟩ := by
    unfold Extent.make
    split
    · rename_i h
      simp [min_eq_left h.le, max_eq_right h.le]
    · rename_i h
      simp [min_eq_right (not_lt.mp h), max_eq_left (not_lt.mp h)]
  refine ⟨by rw [hmake], by rw [hmake], by rw [hmake]; exact min_le_max, ?_⟩
  rw [hmake, simplify_restrictTo, simplify_value]
  simp only [List.map_cons, List.map_nil, restrictOp, Extent.contains]
  rcases Classical.em (min a b ≤ c ∧ c ≤ max a b) with h | h
  · rw [if_pos (by simp [h.1, h.2]), if_pos h]
  · rw [if_neg (by simpa using fun h1 h2 => h ⟨h1, h2⟩), if_neg h]
    simp [undefinedValue]

/-- A `DOMPoint` as the sampler uses it: an (x, y) pair of coordinates. -/
structure Pt where
  x : ℚ
  y : ℚ
deriving DecidableEq, Repr

/-- `new DOMPoint(variable, output)` when the free variable is `"x"`,
`new DOMPoint(output, variable)` when it is `"y"`
(`MathFunctionGraphic.draw`). -/
def mkPoint (xBased : Bool) (v output : ℚ) : Pt :=
  if xBased then ⟨v, output⟩ else ⟨output, v⟩

/-- Number of samples visited by the `while (variable <= end)` loop of
`MathFunctionGraphic.draw` starting at `start` with increment `step`:
the positions are `start + i·step` for `i = 0, 1, …` while `≤ endv`
(requires `0 < step`, as in every terminating run of the source loop). -/
def sampleCount (start endv step : ℚ) : ℕ :=
  if start ≤ endv ∧ 0 < step then (Int.floor ((endv - start) / step)).toNat + 1 else 0

/-- The sample positions of the loop, in visit order. -/
def sampleXs (start endv step : ℚ) : List ℚ :=
  (List.range (sampleCount start endv step)).map fun i : ℕ => start + (i : ℚ) * step

/-- The sampling loop of `MathFunctionGraphic.draw` for one simplified
candidate `f`, walking the remaining sample positions and carrying the
currently open polyline (`points`).  Per sample, the candidate is simplified
with the free variable bound to the sample value; the loop asserts that this
yields exactly one candidate and that it is a `Value` (modelled as returning
`none` when an assertion would throw).  An undefined output closes the open
polyline, handing it to `PathGraphic` only when it has at least one point;
a defined output appends the sampled point.  After the loop the still-open
polyline is handed to `PathGraphic` unconditionally.  The returned list is
the list of handed polylines, in drawing order. -/
def runSamples (sq : ℚ → ℚ) (xBased : Bool) (fv : String) (f : Expression) :
    List ℚ → List Pt → Option (List (List Pt))
  | [], points => some [points]
  | v :: rest, points =>
    match simplify sq f (bindVar fv (some v)) with
    | [.Value output] =>
      match output with
      | none =>
        (runSamples sq xBased fv f rest []).map fun r =>
          if 1 ≤ points.length then points :: r else r
      | some y => runSamples sq xBased fv f rest (points ++ [mkPoint xBased v y])
    | _ => none

/-- `MathFunctionGraphic.draw`: the constructor computes
`math_functions = math_function.simplify({})` once; `draw` then samples each
candidate independently over the visible range, handing polylines to
`PathGraphic` in order. -/
def drawMathFunction (sq : ℚ → ℚ) (fv : String) (xBased : Bool)
    (F : Expression) (start endv step : ℚ) : Option (List (List Pt)) :=
  ((simplify sq F emptySubst).mapM fun f =>
    runSamples sq xBased fv f (sampleXs start endv step) []).map List.flatten

/-- Samples that all evaluate to undefined leave an empty open polyline
unchanged and emit nothing. -/
theorem runSamples_undef_block (sq : ℚ → ℚ) (xb : Bool) (fv : String)
    (f : Expression) (xs rest : List ℚ)
    (h : ∀ x ∈ xs, simplify sq f (bindVar fv (some x)) = [.Value none]) :
    runSamples sq xb fv f (xs ++ rest) [] = runSamples sq xb fv f rest [] := by
  induction xs with
  | nil => rfl
  | cons x tl ih =>
    rw [List.cons_append, runSamples, h x (by simp)]
    rw [ih fun y hy => h y (by simp [hy])]
    simp

/-- A single undefined sample closes the open polyline, emitting it exactly
when it is non-empty, and the run continues with an empty open polyline. -/
theorem runSamples_undef_cons (sq : ℚ → ℚ) (xb : Bool) (fv : String)
    (f : Expression) (x : ℚ) (rest : List ℚ) (points : List Pt)
    (h : simplify sq f (bindVar fv (some x)) = [.Value none]) :
    runSamples sq xb fv f (x :: rest) points =
      (runSamples sq xb fv f rest []).map fun r =>
        if 1 ≤ points.length then points :: r else r := by
  rw [runSamples, h]

/-- A run over undefined samples only hands the final unconditional (empty)
flush to the renderer. -/
theorem runSamples_undef_all (sq : ℚ → ℚ) (xb : Bool) (fv : String)
    (f : Expression) (xs : List ℚ)
    (h : ∀ x ∈ xs, simplify sq f (bindVar fv (some x)) = [.Value none]) :
    runSamples sq xb fv f xs [] = some [[]] := by
  induction xs with
  | nil => rfl
  | cons x tl ih =>
    rw [runSamples_undef_cons sq xb fv f x tl [] (h x (by simp))]
    rw [ih fun y hy => h y (by simp [hy])]
    rfl

/-- Samples that all evaluate to defined values extend the open polyline by
the corresponding points and emit nothing. -/
theorem runSamples_defined_block (sq : ℚ → ℚ) (xb : Bool) (fv : String)
    (f : Expression) (xs rest : List ℚ) (points : List Pt) (yv : ℚ → ℚ)
    (h : ∀ x ∈ xs, simplify sq f (bindVar fv (some x)) = [.Value (some (yv x))]) :
    runSamples sq xb fv f (xs ++ rest) points =
      runSamples sq xb fv f rest (points ++ xs.map fun x => mkPoint xb x (yv x)) := by
  induction xs generalizing points with
  | nil => simp
  | cons x tl ih =>
    rw [List.cons_append, runSamples, h x (by simp)]
    dsimp only
    rw [ih (points ++ [mkPoint xb x (yv x)]) fun y hy => h y (by simp [hy])]
    simp

/-- C10: `Multiply(Value(a), Value(0))` — which the source constructs as
`Divide(Value(a), Divide(Value.ONE, Value(0)))` — simplifies under the empty
substitution map to exactly one candidate, the undefined constant, for every
numeric `a` (including `a = 0`): the inner `1/0` folds to undefined and
undefined propagates through the outer division. -/
theorem c10_multiply_by_zero_undefined (sq : ℚ → ℚ) (a : ℚ) :
    simplify sq (Multiply (.Value (some a)) (.Value (some 0))) emptySubst =
      [undefinedValue] := by
  simp [Multiply, simplify_divide, simplify_value, divOp, oneValue, undefinedValue]

end DesmosDraw

namespace DesmosDraw

/-- The semicircle expression of the spec's sampling example:
`Sqrt(Subtract(Value(4), Multiply(Variable("x"), Variable("x"))))`. -/
def circleExpr : Expression :=
  .Sqrt (Subtract (.Value (some 4)) (Multiply (.Variable "x") (.Variable "x")))

/-- The (simplified) inner product term `x · x` as the engine leaves it:
`Divide(Variable("x"), Divide(Value(1), Variable("x")))`. -/
def circleM : Expression :=
  .Divide (.Variable "x") (.Divide oneValue (.Variable "x"))

/-- The simplified radicand `4 - x·x` as the engine leaves it. -/
def circleS : Expression :=
  .Add (.Value (some 4)) (.Divide circleM negativeOneValue)

/-- The first baseline candidate of `circleExpr`: the upper semicircle arc. -/
def circleUpper : Expression := .PrincipalSqrt circleS

/-- The second baseline candidate of `circleExpr`: the lower semicircle arc. -/
def circleLower : Expression := .Divide circleUpper negativeOneValue

/-- A concrete stand-in for `Math.sqrt` used in closed counterexample runs
(the polyline structure of a run never depends on the square root's values). -/
def sqZero : ℚ → ℚ := fun _ => 0

/-- Simplifying `circleExpr` once with no substitutions yields exactly the
two arc candidates (this is the `math_functions` list of the constructed
`MathFunctionGraphic`). -/
theorem circle_baseline (sq : ℚ → ℚ) :
    simplify sq circleExpr emptySubst = [circleUpper, circleLower] := by
  have ho : simplify sq oneValue emptySubst = [oneValue] := simplify_value sq _ _
  have hno : simplify sq negativeOneValue emptySubst = [negativeOneValue] :=
    simplify_value sq _ _
  have hx : simplify sq (.Variable "x") emptySubst = [.Variable "x"] := by
    rw [simplify_variable]
    rfl
  have h1 : simplify sq (.Divide oneValue (.Variable "x")) emptySubst =
      [.Divide oneValue (.Variable "x")] := by
    rw [simplify_divide, ho, hx]
    rfl
  have h2 : simplify sq circleM emptySubst = [circleM] := by
    rw [circleM, simplify_divide, hx, h1]
    rfl
  have h3 : simplify sq (.Divide oneValue negativeOneValue) emptySubst =
      [.Value (some (-1))] := by
    rw [simplify_divide, ho, hno]
    have hfold : divOp oneValue negativeOneValue = .Value (some (-1)) := by
      unfold divOp oneValue negativeOneValue
      norm_num
    simp [hfold]
  have h4 : simplify sq
      (.Divide circleM (.Divide oneValue negativeOneValue)) emptySubst =
      [.Divide circleM negativeOneValue] := by
    rw [simplify_divide, h2, h3]
    rfl
  have h5 : simplify sq
      (.Add (.Value (some 4)) (.Divide circleM (.Divide oneValue negativeOneValue)))
      emptySubst = [circleS] := by
    rw [simplify_add, simplify_value, h4]
    rfl
  have hM : simplify sq (.Divide circleM negativeOneValue) emptySubst =
      [.Divide circleM negativeOneValue] := by
    rw [simplify_divide, h2, hno]
    rfl
  have hS : simplify sq circleS emptySubst = [circleS] := by
    rw [circleS, simplify_add, simplify_value, hM]
    rfl
  have hU : simplify sq circleUpper emptySubst = [circleUpper] := by
    rw [circleUpper, simplify_principalSqrt, hS]
    rfl
  have h6 : simplify sq
      (.PrincipalSqrt (.Add (.Value (some 4))
        (.Divide circleM (.Divide oneValue negativeOneValue)))) emptySubst =
      [circleUpper] := by
    rw [simplify_principalSqrt, h5]
    rfl
  have h7 : simplify sq
      (.Divide circleUpper (.Divide oneValue negativeOneValue)) emptySubst =
      [circleLower] := by
    rw [simplify_divide, hU, h3]
    rfl
  show simplify sq
    (.Sqrt (.Add (.Value (some 4))
      (.Divide circleM (.Divide oneValue negativeOneValue)))) emptySubst = _
  rw [simplify_sqrt, h6, List.flatMap_cons, h7, List.flatMap_nil]
  rfl


/-- `simplify` of the shared constant `Value.ONE`. -/
theorem simplify_oneValue (sq : ℚ → ℚ) (subs : Subst) :
    simplify sq oneValue subs = [oneValue] :=
  simplify_value sq _ subs

/-- `simplify` of the shared constant `Value.NEGATIVE_ONE`. -/
theorem simplify_negativeOneValue (sq : ℚ → ℚ) (subs : Subst) :
    simplify sq negativeOneValue subs = [negativeOneValue] :=
  simplify_value sq _ subs

/-- `Divide(Value.ONE, Value.NEGATIVE_ONE)` folds to `Value(-1)` under any
substitution map. -/
theorem simplify_one_div_negOne (sq : ℚ → ℚ) (subs : Subst) :
    simplify sq (.Divide oneValue negativeOneValue) subs = [.Value (some (-1))] := by
  rw [simplify_divide, simplify_oneValue, simplify_negativeOneValue]
  have hfold : divOp oneValue negativeOneValue = .Value (some (-1)) := by
    show (if (-1 : ℚ) = 0 then Expression.Value none
      else Expression.Value (some (1 / (-1)))) = Expression.Value (some (-1))
    rw [if_neg (by norm_num)]
    norm_num
  simp only [List.flatMap_cons, List.flatMap_nil, List.map_cons, List.map_nil,
    List.append_nil, hfold]

/-- Binding `x` in the simplified radicand `circleS` to a non-zero sample
value folds it to the single constant `4 - q²`. -/
theorem circleS_eval (sq : ℚ → ℚ) (q : ℚ) (hq : q ≠ 0) :
    simplify sq circleS (bindVar "x" (some q)) = [.Value (some (4 - q * q))] := by
  have hq1 : 1 / q ≠ 0 := one_div_ne_zero hq
  have hx : simplify sq (.Variable "x") (bindVar "x" (some q)) = [.Value (some q)] := by
    rw [simplify_variable]
    rfl
  have h1 : simplify sq (.Divide oneValue (.Variable "x")) (bindVar "x" (some q)) =
      [.Value (some (1 / q))] := by
    rw [simplify_divide, simplify_oneValue, hx]
    have hfold : divOp oneValue (.Value (some q)) = .Value (some (1 / q)) := by
      show (if q = 0 then Expression.Value none
        else Expression.Value (some (1 / q))) = Expression.Value (some (1 / q))
      rw [if_neg hq]
    simp only [List.flatMap_cons, List.flatMap_nil, List.map_cons, List.map_nil,
      List.append_nil, hfold]
  have h2 : simplify sq circleM (bindVar "x" (some q)) =
      [.Value (some (q / (1 / q)))] := by
    rw [circleM, simplify_divide, hx, h1]
    have hfold : divOp (.Value (some q)) (.Value (some (1 / q))) =
        .Value (some (q / (1 / q))) := by
      show (if 1 / q = 0 then Expression.Value none
        else Expression.Value (some (q / (1 / q)))) = Expression.Value (some (q / (1 / q)))
      rw [if_neg hq1]
    simp only [List.flatMap_cons, List.flatMap_nil, List.map_cons, List.map_nil,
      List.append_nil, hfold]
  have h4 : simplify sq (.Divide circleM negativeOneValue) (bindVar "x" (some q)) =
      [.Value (some (q / (1 / q) / (-1)))] := by
    rw [simplify_divide, h2, simplify_negativeOneValue]
    have hfold : divOp (.Value (some (q / (1 / q)))) negativeOneValue =
        .Value (some (q / (1 / q) / (-1))) := by
      show (if (-1 : ℚ) = 0 then Expression.Value none
        else Expression.Value (some (q / (1 / q) / (-1)))) =
        Expression.Value (some (q / (1 / q) / (-1)))
      rw [if_neg (by norm_num)]
    simp only [List.flatMap_cons, List.flatMap_nil, List.map_cons, List.map_nil,
      List.append_nil, hfold]
  have harith : 4 + q / (1 / q) / (-1) = 4 - q * q := by
    rw [one_div, div_inv_eq_mul]
    ring
  rw [circleS, simplify_add, simplify_value, h4]
  have hfold : addOp (.Value (some 4)) (.Value (some (q / (1 / q) / (-1)))) =
      .Value (some (4 - q * q)) := by
    show Expression.Value (some (4 + q / (1 / q) / (-1))) =
      Expression.Value (some (4 - q * q))
    rw [harith]
  simp only [List.flatMap_cons, List.flatMap_nil, List.map_cons, List.map_nil,
    List.append_nil, hfold]

/-- Binding `x` to the sample value `0` makes the radicand undefined: the
inner `Divide(Value(1), x)` folds to `1/0`, i.e. undefined, and undefined
propagates outward.  This is the `Multiply(a, b) = Divide(a, Divide(1, b))`
artefact of C10 showing up inside the semicircle expression. -/
theorem circleS_eval_zero (sq : ℚ → ℚ) :
    simplify sq circleS (bindVar "x" (some 0)) = [.Value none] := by
  have hx : simplify sq (.Variable "x") (bindVar "x" (some 0)) = [.Value (some 0)] := by
    rw [simplify_variable]
    rfl
  have h1 : simplify sq (.Divide oneValue (.Variable "x")) (bindVar "x" (some 0)) =
      [.Value none] := by
    rw [simplify_divide, simplify_oneValue, hx]
    have hfold : divOp oneValue (.Value (some 0)) = .Value none := by
      show (if (0 : ℚ) = 0 then Expression.Value none
        else Expression.Value (some (1 / 0))) = Expression.Value none
      rw [if_pos rfl]
    simp only [List.flatMap_cons, List.flatMap_nil, List.map_cons, List.map_nil,
      List.append_nil, hfold]
  have h2 : simplify sq circleM (bindVar "x" (some 0)) = [.Value none] := by
    rw [circleM, simplify_divide, hx, h1]
    rfl
  have h4 : simplify sq (.Divide circleM negativeOneValue) (bindVar "x" (some 0)) =
      [.Value none] := by
    rw [simplify_divide, h2, simplify_negativeOneValue]
    rfl
  rw [circleS, simplify_add, simplify_value, h4]
  rfl

/-- Sampling the upper arc at a non-zero position inside the circle yields
the single defined output `sq(4 - q²)`. -/
theorem circleUpper_eval_defined (sq : ℚ → ℚ) (q : ℚ) (hq : q ≠ 0)
    (h4 : 0 ≤ 4 - q * q) :
    simplify sq circleUpper (bindVar "x" (some q)) =
      [.Value (some (sq (4 - q * q)))] := by
  rw [circleUpper, simplify_principalSqrt, circleS_eval sq q hq]
  have hfold : psqrtOp sq (.Value (some (4 - q * q))) =
      .Value (some (sq (4 - q * q))) := by
    show (if 4 - q * q < 0 then Expression.Value none
      else Expression.Value (some (sq (4 - q * q)))) =
      Expression.Value (some (sq (4 - q * q)))
    rw [if_neg (not_lt.mpr h4)]
  simp only [List.map_cons, List.map_nil, hfold]

/-- Sampling the upper arc at `0` yields the single undefined output. -/
theorem circleUpper_eval_zero (sq : ℚ → ℚ) :
    simplify sq circleUpper (bindVar "x" (some 0)) = [.Value none] := by
  rw [circleUpper, simplify_principalSqrt, circleS_eval_zero]
  rfl

/-- Sampling the upper arc at a non-zero position outside the circle yields
the single undefined output. -/
theorem circleUpper_eval_outside (sq : ℚ → ℚ) (q : ℚ) (hq : q ≠ 0)
    (h4 : 4 - q * q < 0) :
    simplify sq circleUpper (bindVar "x" (some q)) = [.Value none] := by
  rw [circleUpper, simplify_principalSqrt, circleS_eval sq q hq]
  have hfold : psqrtOp sq (.Value (some (4 - q * q))) = .Value none := by
    show (if 4 - q * q < 0 then Expression.Value none
      else Expression.Value (some (sq (4 - q * q)))) = Expression.Value none
    rw [if_pos h4]
  simp only [List.map_cons, List.map_nil, hfold]

/-- Sampling the lower arc at a non-zero position inside the circle yields
the single defined output `sq(4 - q²) / (-1)`. -/
theorem circleLower_eval_defined (sq : ℚ → ℚ) (q : ℚ) (hq : q ≠ 0)
    (h4 : 0 ≤ 4 - q * q) :
    simplify sq circleLower (bindVar "x" (some q)) =
      [.Value (some (sq (4 - q * q) / (-1)))] := by
  rw [circleLower, simplify_divide, circleUpper_eval_defined sq q hq h4,
    simplify_negativeOneValue]
  have hfold : divOp (.Value (some (sq (4 - q * q)))) negativeOneValue =
      .Value (some (sq (4 - q * q) / (-1))) := by
    show (if (-1 : ℚ) = 0 then Expression.Value none
      else Expression.Value (some (sq (4 - q * q) / (-1)))) =
      Expression.Value (some (sq (4 - q * q) / (-1)))
    rw [if_neg (by norm_num)]
  simp only [List.flatMap_cons, List.flatMap_nil, List.map_cons, List.map_nil,
    List.append_nil, hfold]

/-- Sampling the lower arc at `0` yields the single undefined output. -/
theorem circleLower_eval_zero (sq : ℚ → ℚ) :
    simplify sq circleLower (bindVar "x" (some 0)) = [.Value none] := by
  rw [circleLower, simplify_divide, circleUpper_eval_zero,
    simplify_negativeOneValue]
  rfl

/-- Sampling the lower arc at a non-zero position outside the circle yields
the single undefined output. -/
theorem circleLower_eval_outside (sq : ℚ → ℚ) (q : ℚ) (hq : q ≠ 0)
    (h4 : 4 - q * q < 0) :
    simplify sq circleLower (bindVar "x" (some q)) = [.Value none] := by
  rw [circleLower, simplify_divide, circleUpper_eval_outside sq q hq h4,
    simplify_negativeOneValue]
  rfl


theorem mem_range'_bounds {k a l : ℕ} (h : k ∈ List.range' a l) :
    a ≤ k ∧ k < a + l := by
  obtain ⟨i, hi, rfl⟩ := List.mem_range'.mp h
  omega

/-- Sampling one arc candidate over `[-3, 3]` with step `1/4` (a step inside
the source's typical `0.1–0.3` band): the grid hits `x = 0` exactly (at
sample index 12), where the candidate is undefined, so the run emits **two**
non-empty polylines (indices `4..11` and `13..20`) plus the final
unconditional empty flush. -/
theorem circle_run_quarter (sq : ℚ → ℚ) (f : Expression) (yv : ℚ → ℚ)
    (hdef : ∀ q : ℚ, q ≠ 0 → 0 ≤ 4 - q * q →
      simplify sq f (bindVar "x" (some q)) = [.Value (some (yv q))])
    (hzero : simplify sq f (bindVar "x" (some 0)) = [.Value none])
    (hout : ∀ q : ℚ, q ≠ 0 → 4 - q * q < 0 →
      simplify sq f (bindVar "x" (some q)) = [.Value none]) :
    runSamples sq true "x" f (sampleXs (-3) 3 (1/4)) [] =
      some [((List.range' 4 8).map fun i : ℕ => (-3 : ℚ) + i * (1/4)).map
              (fun x => mkPoint true x (yv x)),
            ((List.range' 13 8).map fun i : ℕ => (-3 : ℚ) + i * (1/4)).map
              (fun x => mkPoint true x (yv x)),
            []] := by
  have hcount : sampleCount (-3) 3 (1/4) = 25 := by
    rw [sampleCount, if_pos (by norm_num)]
    have h24 : ((3 : ℚ) - -3) / (1/4) = ((24 : ℤ) : ℚ) := by norm_num
    rw [h24, Int.floor_intCast]
    rfl
  have hdecomp : List.range 25 = List.range' 0 4 ++ (List.range' 4 8 ++
      ([12] ++ (List.range' 13 8 ++ List.range' 21 4))) := by rfl
  have hA : ∀ x ∈ (List.range' 0 4).map fun i : ℕ => (-3 : ℚ) + i * (1/4),
      simplify sq f (bindVar "x" (some x)) = [.Value none] := by
    intro x hx
    obtain ⟨k, hk, rfl⟩ := List.mem_map.mp hx
    obtain ⟨hk1, hk2⟩ := mem_range'_bounds hk
    have hkQ : (k : ℚ) ≤ 3 := by exact_mod_cast Nat.lt_succ_iff.mp hk2
    have hxle : (-3 : ℚ) + k * (1/4) ≤ -9/4 := by linarith
    exact hout _ (by intro h0; rw [h0] at hxle; norm_num at hxle)
      (by nlinarith [hxle])
  have hB : ∀ x ∈ (List.range' 4 8).map fun i : ℕ => (-3 : ℚ) + i * (1/4),
      simplify sq f (bindVar "x" (some x)) = [.Value (some (yv x))] := by
    intro x hx
    obtain ⟨k, hk, rfl⟩ := List.mem_map.mp hx
    obtain ⟨hk1, hk2⟩ := mem_range'_bounds hk
    have hkQ1 : (4 : ℚ) ≤ k := by exact_mod_cast hk1
    have hkQ2 : (k : ℚ) ≤ 11 := by exact_mod_cast Nat.lt_succ_iff.mp hk2
    have hxlo : (-2 : ℚ) ≤ -3 + k * (1/4) := by linarith
    have hxhi : (-3 : ℚ) + k * (1/4) ≤ -1/4 := by linarith
    exact hdef _ (by intro h0; rw [h0] at hxhi; norm_num at hxhi)
      (by nlinarith [hxlo, hxhi])
  have hC0 : (-3 : ℚ) + ((12 : ℕ) : ℚ) * (1/4) = 0 := by norm_num
  have hD : ∀ x ∈ (List.range' 13 8).map fun i : ℕ => (-3 : ℚ) + i * (1/4),
      simplify sq f (bindVar "x" (some x)) = [.Value (some (yv x))] := by
    intro x hx
    obtain ⟨k, hk, rfl⟩ := List.mem_map.mp hx
    obtain ⟨hk1, hk2⟩ := mem_range'_bounds hk
    have hkQ1 : (13 : ℚ) ≤ k := by exact_mod_cast hk1
    have hkQ2 : (k : ℚ) ≤ 20 := by exact_mod_cast Nat.lt_succ_iff.mp hk2
    have hxlo : (1/4 : ℚ) ≤ -3 + k * (1/4) := by linarith
    have hxhi : (-3 : ℚ) + k * (1/4) ≤ 2 := by linarith
    exact hdef _ (by intro h0; rw [h0] at hxlo; norm_num at hxlo)
      (by nlinarith [hxlo, hxhi])
  have hE : ∀ x ∈ (List.range' 21 4).map fun i : ℕ => (-3 : ℚ) + i * (1/4),
      simplify sq f (bindVar "x" (some x)) = [.Value none] := by
    intro x hx
    obtain ⟨k, hk, rfl⟩ := List.mem_map.mp hx
    obtain ⟨hk1, hk2⟩ := mem_range'_bounds hk
    have hkQ1 : (21 : ℚ) ≤ k := by exact_mod_cast hk1
    have hxlo : (9/4 : ℚ) ≤ -3 + k * (1/4) := by linarith
    exact hout _ (by intro h0; rw [h0] at hxlo; norm_num at hxlo)
      (by nlinarith [hxlo])
  rw [sampleXs, hcount, hdecomp, List.map_append, List.map_append,
    List.map_append, List.map_append]
  rw [runSamples_undef_block sq true "x" f _ _ hA]
  rw [runSamples_defined_block sq true "x" f _ _ _ yv hB]
  rw [List.map_cons, List.map_nil, List.singleton_append, List.nil_append]
  rw [runSamples_undef_cons sq true "x" f _ _ _ (by
    have h0 : (-3 : ℚ) + ((12 : ℕ) : ℚ) * (1/4) = 0 := by norm_num
    rw [h0]
    exact hzero)]
  rw [runSamples_defined_block sq true "x" f _ _ _ yv hD]
  rw [show List.range' 21 4 = 21 :: List.range' 22 3 from rfl, List.map_cons]
  rw [runSamples_undef_cons sq true "x" f _ _ _
    (hE _ (List.mem_map_of_mem _ (List.mem_range'.mpr ⟨0, by omega, by omega⟩)))]
  rw [runSamples_undef_all sq true "x" f _ (fun x hx => hE x (by
    obtain ⟨k, hk, rfl⟩ := List.mem_map.mp hx
    obtain ⟨hk1, hk2⟩ := mem_range'_bounds hk
    exact List.mem_map_of_mem _ (List.mem_range'.mpr ⟨k - 21, by omega, by omega⟩)))]
  simp [List.length_map, List.length_range']

/-- C7 counterexample: sampling `circleExpr` over `[-3, 3]` with the fixed
step `1/4` (inside the source's typical `0.1–0.3` band) hands **four**
non-empty polylines to the renderer, not two: the sample grid hits `x = 0`,
where `Multiply(x, x) = Divide(x, Divide(1, x))` is undefined (division
`1/0`), so each of the two arcs is split in two.  In particular the claim
"exactly two polylines, with no undefined sample inside `[-2, 2]`" fails:
`x = 0` lies inside `[-2, 2]` and its sample is undefined. -/
theorem c7_counterexample :
    (drawMathFunction sqZero "x" true circleExpr (-3) 3 (1/4)).map
        (fun ps => (ps.filter fun p => !p.isEmpty).length) = some 4 ∧
    (drawMathFunction sqZero "x" true circleExpr (-3) 3 (1/4)).map
        (fun ps => (ps.filter fun p => !p.isEmpty).length) ≠ some 2 := by
  have hu := circle_run_quarter sqZero circleUpper (fun q => sqZero (4 - q * q))
    (fun q hq h4 => circleUpper_eval_defined sqZero q hq h4)
    (circleUpper_eval_zero sqZero)
    (fun q hq h4 => circleUpper_eval_outside sqZero q hq h4)
  have hl := circle_run_quarter sqZero circleLower
    (fun q => sqZero (4 - q * q) / (-1))
    (fun q hq h4 => circleLower_eval_defined sqZero q hq h4)
    (circleLower_eval_zero sqZero)
    (fun q hq h4 => circleLower_eval_outside sqZero q hq h4)
  have hmain : (drawMathFunction sqZero "x" true circleExpr (-3) 3 (1/4)).map
      (fun ps => (ps.filter fun p => !p.isEmpty).length) = some 4 := by
    rw [drawMathFunction, circle_baseline]
    simp only [List.mapM_cons, List.mapM_nil, hu, hl, Option.pure_def,
      Option.bind_eq_bind, Option.bind_some, Option.map_some, List.flatten]
    simp [List.filter, List.range']
  exact ⟨hmain, by rw [hmain]; simp⟩

/-- Sampling one arc candidate over `[-3, 3]` with step `2/7` (also inside
the `0.1–0.3` band): the grid misses `x = 0` (that would need `2k = 21`),
so the run emits exactly **one** non-empty polyline (samples `4..17`) plus
the final unconditional empty flush. -/
theorem circle_run_twosevenths (sq : ℚ → ℚ) (f : Expression) (yv : ℚ → ℚ)
    (hdef : ∀ q : ℚ, q ≠ 0 → 0 ≤ 4 - q * q →
      simplify sq f (bindVar "x" (some q)) = [.Value (some (yv q))])
    (hout : ∀ q : ℚ, q ≠ 0 → 4 - q * q < 0 →
      simplify sq f (bindVar "x" (some q)) = [.Value none]) :
    runSamples sq true "x" f (sampleXs (-3) 3 (2/7)) [] =
      some [((List.range' 4 14).map fun i : ℕ => (-3 : ℚ) + i * (2/7)).map
              (fun x => mkPoint true x (yv x)),
            []] := by
  have hcount : sampleCount (-3) 3 (2/7) = 22 := by
    rw [sampleCount, if_pos (by norm_num)]
    have h21 : ((3 : ℚ) - -3) / (2/7) = ((21 : ℤ) : ℚ) := by norm_num
    rw [h21, Int.floor_intCast]
    rfl
  have hdecomp : List.range 22 = List.range' 0 4 ++ (List.range' 4 14 ++
      List.range' 18 4) := by rfl
  have hA : ∀ x ∈ (List.range' 0 4).map fun i : ℕ => (-3 : ℚ) + i * (2/7),
      simplify sq f (bindVar "x" (some x)) = [.Value none] := by
    intro x hx
    obtain ⟨k, hk, rfl⟩ := List.mem_map.mp hx
    obtain ⟨hk1, hk2⟩ := mem_range'_bounds hk
    have hkQ : (k : ℚ) ≤ 3 := by exact_mod_cast Nat.lt_succ_iff.mp hk2
    have hxle : (-3 : ℚ) + k * (2/7) ≤ -15/7 := by linarith
    exact hout _ (by intro h0; rw [h0] at hxle; norm_num at hxle)
      (by nlinarith [hxle])
  have hB : ∀ x ∈ (List.range' 4 14).map fun i : ℕ => (-3 : ℚ) + i * (2/7),
      simplify sq f (bindVar "x" (some x)) = [.Value (some (yv x))] := by
    intro x hx
    obtain ⟨k, hk, rfl⟩ := List.mem_map.mp hx
    obtain ⟨hk1, hk2⟩ := mem_range'_bounds hk
    have hkQ1 : (4 : ℚ) ≤ k := by exact_mod_cast hk1
    have hkQ2 : (k : ℚ) ≤ 17 := by exact_mod_cast Nat.lt_succ_iff.mp hk2
    have hxlo : (-13/7 : ℚ) ≤ -3 + k * (2/7) := by linarith
    have hxhi : (-3 : ℚ) + k * (2/7) ≤ 13/7 := by linarith
    refine hdef _ ?_ (by nlinarith [hxlo, hxhi])
    intro h0
    have h2k : (2 * k : ℚ) = 21 := by linarith
    have h2k' : (2 * k : ℕ) = 21 := by exact_mod_cast h2k
    omega
  have hE : ∀ x ∈ (List.range' 18 4).map fun i : ℕ => (-3 : ℚ) + i * (2/7),
      simplify sq f (bindVar "x" (some x)) = [.Value none] := by
    intro x hx
    obtain ⟨k, hk, rfl⟩ := List.mem_map.mp hx
    obtain ⟨hk1, hk2⟩ := mem_range'_bounds hk
    have hkQ1 : (18 : ℚ) ≤ k := by exact_mod_cast hk1
    have hxlo : (15/7 : ℚ) ≤ -3 + k * (2/7) := by linarith
    exact hout _ (by intro h0; rw [h0] at hxlo; norm_num at hxlo)
      (by nlinarith [hxlo])
  rw [sampleXs, hcount, hdecomp, List.map_append, List.map_append]
  rw [runSamples_undef_block sq true "x" f _ _ hA]
  rw [runSamples_defined_block sq true "x" f _ _ _ yv hB]
  rw [List.nil_append]
  rw [show List.range' 18 4 = 18 :: List.range' 19 3 from rfl, List.map_cons]
  rw [runSamples_undef_cons sq true "x" f _ _ _
    (hE _ (List.mem_map_of_mem _ (List.mem_range'.mpr ⟨0, by omega, by omega⟩)))]
  rw [runSamples_undef_all sq true "x" f _ (fun x hx => hE x (by
    obtain ⟨k, hk, rfl⟩ := List.mem_map.mp hx
    obtain ⟨hk1, hk2⟩ := mem_range'_bounds hk
    exact List.mem_map_of_mem _ (List.mem_range'.mpr ⟨k - 18, by omega, by omega⟩)))]
  simp [List.length_map, List.length_range']

/-- C7 amended: simplifying the semicircle expression once yields exactly the
upper- and lower-arc candidates; sampling over `[-3, 3]` with the fixed step
`2/7` — a reasonably small step whose grid avoids `x = 0` — hands exactly two
non-empty polylines to the renderer (one per arc), and at every sample point
strictly inside `(-2, 2)` both arcs evaluate to the single defined outputs
`sq(4 - x²)` and `sq(4 - x²)/(-1)` (no undefined sample, hence no break).
For steps whose grid hits `x = 0` (e.g. `1/4`, see the counterexample) each
arc is split in two instead, because `Multiply(x, x)` is undefined at `0`. -/
theorem c7_amended (sq : ℚ → ℚ) :
    simplify sq circleExpr emptySubst = [circleUpper, circleLower] ∧
    (drawMathFunction sq "x" true circleExpr (-3) 3 (2/7)).map
        (fun ps => (ps.filter fun p => !p.isEmpty).length) = some 2 ∧
    (∀ q ∈ sampleXs (-3) 3 (2/7), -2 < q → q < 2 →
      simplify sq circleUpper (bindVar "x" (some q)) =
          [.Value (some (sq (4 - q * q)))] ∧
        simplify sq circleLower (bindVar "x" (some q)) =
          [.Value (some (sq (4 - q * q) / (-1)))]) := by
  have hu := circle_run_twosevenths sq circleUpper (fun q => sq (4 - q * q))
    (fun q hq h4 => circleUpper_eval_defined sq q hq h4)
    (fun q hq h4 => circleUpper_eval_outside sq q hq h4)
  have hl := circle_run_twosevenths sq circleLower
    (fun q => sq (4 - q * q) / (-1))
    (fun q hq h4 => circleLower_eval_defined sq q hq h4)
    (fun q hq h4 => circleLower_eval_outside sq q hq h4)
  refine ⟨circle_baseline sq, ?_, ?_⟩
  · rw [drawMathFunction, circle_baseline]
    simp only [List.mapM_cons, List.mapM_nil, hu, hl, Option.pure_def,
      Option.bind_eq_bind, Option.bind_some, Option.map_some, List.flatten]
    simp [List.filter, List.range']
  · intro q hq hlo hhi
    obtain ⟨k, hk, rfl⟩ := List.mem_map.mp hq
    have hne : (-3 : ℚ) + k * (2/7) ≠ 0 := by
      intro h0
      have h2k : (2 * k : ℚ) = 21 := by linarith
      have h2k' : (2 * k : ℕ) = 21 := by exact_mod_cast h2k
      omega
    have h4 : 0 ≤ 4 - ((-3 : ℚ) + k * (2/7)) * ((-3 : ℚ) + k * (2/7)) := by
      nlinarith [hlo, hhi]
    exact ⟨circleUpper_eval_defined sq _ hne h4,
      circleLower_eval_defined sq _ hne h4⟩

theorem variables_addOp (a b : Expression) :
    (addOp a b).variables ⊆ a.variables ∪ b.variables := by
  unfold addOp
  split
  · simp [Expression.variables]
  · simp [Expression.variables]
  · exact fun n hn => hn

theorem variables_divOp (a b : Expression) :
    (divOp a b).variables ⊆ a.variables ∪ b.variables := by
  unfold divOp
  split
  · split <;> simp [Expression.variables]
  · simp [Expression.variables]
  · exact fun n hn => hn

theorem variables_psqrtOp (sq : ℚ → ℚ) (a : Expression) :
    (psqrtOp sq a).variables ⊆ a.variables := by
  unfold psqrtOp
  split
  · simp [Expression.variables]
  · split <;> simp [Expression.variables]
  · exact fun n hn => hn

theorem variables_restrictOp (range : Extent) (a : Expression) :
    (restrictOp range a).variables ⊆ a.variables := by
  unfold restrictOp
  split
  · simp [Expression.variables]
  · split <;> simp [Expression.variables]
  · exact fun n hn => hn

/-- Simplification never introduces free variables: every candidate's
variable set is contained in the input's. -/
theorem variables_simplifyAux_subset (sq : ℚ → ℚ) (e : Expression) (subs : Subst) :
    ∀ s ∈ simplifyAux sq e subs, (s : Simplified).1.variables ⊆ e.variables := by
  induction e, subs using simplifyAux.induct sq with
  | case1 n subs payload hp =>
    intro s hs
    rw [simplifyAux, hp] at hs
    simp at hs
    subst hs
    simp [Expression.variables]
  | case2 n subs hp =>
    intro s hs
    rw [simplifyAux, hp] at hs
    simp at hs
    subst hs
    exact fun m hm => hm
  | case3 v subs =>
    intro s hs
    rw [simplifyAux] at hs
    simp at hs
    subst hs
    exact fun m hm => hm
  | case4 a b subs iha ihb =>
    intro s hs
    rw [simplifyAux] at hs
    simp only [List.mem_flatMap, List.mem_map] at hs
    obtain ⟨x, hx, y, hy, rfl⟩ := hs
    intro n hn
    rcases Finset.mem_union.mp (variables_addOp x.1 y.1 hn) with h | h
    · exact Finset.mem_union_left _ (iha x hx h)
    · exact Finset.mem_union_right _ (ihb y hy h)
  | case5 a b subs iha ihb =>
    intro s hs
    rw [simplifyAux] at hs
    simp only [List.mem_flatMap, List.mem_map] at hs
    obtain ⟨x, hx, y, hy, rfl⟩ := hs
    intro n hn
    rcases Finset.mem_union.mp (variables_divOp x.1 y.1 hn) with h | h
    · exact Finset.mem_union_left _ (iha x hx h)
    · exact Finset.mem_union_right _ (ihb y hy h)
  | case6 v range subs ihv =>
    intro s hs
    rw [simplifyAux] at hs
    simp only [List.mem_map] at hs
    obtain ⟨x, hx, rfl⟩ := hs
    exact fun n hn => ihv x hx (variables_restrictOp range x.1 hn)
  | case7 v subs ihv =>
    intro s hs
    rw [simplifyAux] at hs
    simp only [List.mem_map] at hs
    obtain ⟨x, hx, rfl⟩ := hs
    exact fun n hn => ihv x hx (variables_psqrtOp sq x.1 hn)
  | case8 v subs ihp ihnest =>
    intro s hs
    rw [simplifyAux] at hs
    simp only [List.mem_flatMap, List.mem_cons] at hs
    obtain ⟨t, ht, hst⟩ := hs
    rcases hst with rfl | hs'
    · exact ihp _ ht
    · intro n hn
      have hsub := ihnest t s hs' hn
      simp only [Expression.variables, oneValue, negativeOneValue,
        Finset.union_empty, Finset.empty_union] at hsub
      exact ihp _ ht hsub

/-- `simplify` candidates never introduce free variables. -/
theorem variables_simplify_subset (sq : ℚ → ℚ) (e : Expression) (subs : Subst)
    (c : Expression) (hc : c ∈ simplify sq e subs) :
    c.variables ⊆ e.variables := by
  unfold simplify at hc
  obtain ⟨s, hs, rfl⟩ := List.mem_map.mp hc
  exact variables_simplifyAux_subset sq e subs s hs

/-- Every `simplify` candidate is free of `Sqrt` nodes. -/
theorem sqrtCount_simplify (sq : ℚ → ℚ) (e : Expression) (subs : Subst)
    (c : Expression) (hc : c ∈ simplify sq e subs) : sqrtCount c = 0 := by
  unfold simplify at hc
  obtain ⟨s, hs, rfl⟩ := List.mem_map.mp hc
  exact s.2

theorem addOp_values (w1 w2 : Option ℚ) :
    ∃ w, addOp (.Value w1) (.Value w2) = .Value w := by
  rcases w1 with _ | x <;> rcases w2 with _ | y
  · exact ⟨none, rfl⟩
  · exact ⟨none, rfl⟩
  · exact ⟨none, rfl⟩
  · exact ⟨some (x + y), rfl⟩

theorem divOp_values (w1 w2 : Option ℚ) :
    ∃ w, divOp (.Value w1) (.Value w2) = .Value w := by
  rcases w1 with _ | x <;> rcases w2 with _ | y
  · exact ⟨none, rfl⟩
  · exact ⟨none, rfl⟩
  · exact ⟨none, rfl⟩
  · refine ⟨if y = 0 then none else some (x / y), ?_⟩
    show (if y = 0 then Expression.Value none else Expression.Value (some (x / y))) = _
    split <;> rfl

theorem psqrtOp_values (sq : ℚ → ℚ) (w1 : Option ℚ) :
    ∃ w, psqrtOp sq (.Value w1) = .Value w := by
  rcases w1 with _ | x
  · exact ⟨none, rfl⟩
  · refine ⟨if x < 0 then none else some (sq x), ?_⟩
    show (if x < 0 then Expression.Value none else Expression.Value (some (sq x))) = _
    split <;> rfl

theorem restrictOp_values (range : Extent) (w1 : Option ℚ) :
    ∃ w, restrictOp range (.Value w1) = .Value w := by
  rcases w1 with _ | x
  · exact ⟨none, rfl⟩
  · refine ⟨if range.contains x then some x else none, ?_⟩
    show (if range.contains x then Expression.Value (some x) else Expression.Value none) = _
    split <;> rfl

/-- A `Sqrt`-free expression all of whose free variables are bound simplifies
to exactly one candidate, and that candidate is a `Value`. -/
theorem simplify_bound_value (sq : ℚ → ℚ) (c : Expression) (subs : Subst)
    (h0 : sqrtCount c = 0) (hb : ∀ n ∈ c.variables, (subs n).isSome) :
    ∃ w, simplify sq c subs = [.Value w] := by
  induction c with
  | Variable n =>
    have hmem := hb n (by simp [Expression.variables])
    cases hs : subs n
    · rw [hs] at hmem
      simp at hmem
    · exact ⟨_, by rw [simplify_variable, hs]⟩
  | Value v => exact ⟨v, simplify_value sq v subs⟩
  | Add a b iha ihb =>
    simp only [sqrtCount] at h0
    obtain ⟨w1, h1⟩ := iha (by omega) fun n hn =>
      hb n (by simp [Expression.variables]; exact Or.inl hn)
    obtain ⟨w2, h2⟩ := ihb (by omega) fun n hn =>
      hb n (by simp [Expression.variables]; exact Or.inr hn)
    obtain ⟨w, hw⟩ := addOp_values w1 w2
    refine ⟨w, ?_⟩
    rw [simplify_add, h1, h2]
    simp only [List.flatMap_cons, List.flatMap_nil, List.map_cons, List.map_nil,
      List.append_nil, hw]
  | Divide a b iha ihb =>
    simp only [sqrtCount] at h0
    obtain ⟨w1, h1⟩ := iha (by omega) fun n hn =>
      hb n (by simp [Expression.variables]; exact Or.inl hn)
    obtain ⟨w2, h2⟩ := ihb (by omega) fun n hn =>
      hb n (by simp [Expression.variables]; exact Or.inr hn)
    obtain ⟨w, hw⟩ := divOp_values w1 w2
    refine ⟨w, ?_⟩
    rw [simplify_divide, h1, h2]
    simp only [List.flatMap_cons, List.flatMap_nil, List.map_cons, List.map_nil,
      List.append_nil, hw]
  | RestrictTo v range ihv =>
    simp only [sqrtCount] at h0
    obtain ⟨w1, h1⟩ := ihv h0 fun n hn => hb n (by simpa [Expression.variables])
    obtain ⟨w, hw⟩ := restrictOp_values range w1
    exact ⟨w, by rw [simplify_restrictTo, h1]; simp only [List.map_cons,
      List.map_nil, hw]⟩
  | PrincipalSqrt v ihv =>
    simp only [sqrtCount] at h0
    obtain ⟨w1, h1⟩ := ihv h0 fun n hn => hb n (by simpa [Expression.variables])
    obtain ⟨w, hw⟩ := psqrtOp_values sq w1
    exact ⟨w, by rw [simplify_principalSqrt, h1]; simp only [List.map_cons,
      List.map_nil, hw]⟩
  | Sqrt v ihv => simp [sqrtCount] at h0

/-- C2: for an expression whose free-variable set is exactly `{v}`, every
baseline candidate (produced by `simplify({})`) re-simplifies, after binding
`v` to a numeric `Value`, to exactly one candidate, and that candidate is a
`Value` (possibly holding undefined); consequently the sampling loop's two
assertions ("multiple outputs" / "output that wasn't a value") never throw
on any sample list. -/
theorem c2_bound_candidate_single_value (sq : ℚ → ℚ) (e : Expression)
    (v : String) (hv : e.variables = {v}) (c : Expression)
    (hc : c ∈ simplify sq e emptySubst) (q : ℚ) :
    (∃ w, simplify sq c (bindVar v (some q)) = [.Value w]) ∧
    ∀ (xb : Bool) (xs : List ℚ) (points : List Pt),
      (runSamples sq xb v c xs points).isSome := by
  have h0 := sqrtCount_simplify sq e emptySubst c hc
  have hvars := variables_simplify_subset sq e emptySubst c hc
  have hsingle : ∀ q' : ℚ, ∃ w, simplify sq c (bindVar v (some q')) = [.Value w] := by
    intro q'
    apply simplify_bound_value sq c _ h0
    intro n hn
    have hne : n ∈ e.variables := hvars hn
    rw [hv] at hne
    rw [Finset.mem_singleton] at hne
    simp [bindVar, hne]
  refine ⟨hsingle q, ?_⟩
  intro xb xs
  induction xs with
  | nil =>
    intro points
    simp [runSamples]
  | cons x tl ih =>
    intro points
    obtain ⟨w, hw⟩ := hsingle x
    rw [runSamples, hw]
    cases w
    · simpa using ih []
    · exact ih _

/-- Witness for C2 at the one-variable expression `Variable("x")` and the
sample value `5`. -/
theorem c2_witness :
    (∃ w, simplify sqZero (.Variable "x") (bindVar "x" (some 5)) = [.Value w]) ∧
    ∀ (xb : Bool) (xs : List ℚ) (points : List Pt),
      (runSamples sqZero xb "x" (.Variable "x") xs points).isSome :=
  c2_bound_candidate_single_value sqZero (.Variable "x") "x" rfl
    (.Variable "x") (by rw [simplify_variable]; simp [emptySubst]) 5

/-- The per-sample outcome the sampling loop observes: `some output` when the
per-sample simplification yields exactly one `Value` (with `output = none`
meaning the undefined constant), `none` when one of the loop's assertions
would throw. -/
def sampleValue (sq : ℚ → ℚ) (fv : String) (f : Expression) (x : ℚ) :
    Option (Option ℚ) :=
  match simplify sq f (bindVar fv (some x)) with
  | [.Value output] => some output
  | _ => none

/-- Specification-side grouping of a list of (sample position, outcome)
pairs into polylines: consecutive defined samples accumulate into the open
polyline `acc`; an undefined sample closes it (kept only when non-empty);
the polyline still open after the last sample is kept unconditionally. -/
def specRunsFrom (xb : Bool) (acc : List Pt) :
    List (ℚ × Option ℚ) → List (List Pt)
  | [] => [acc]
  | (x, some y) :: os => specRunsFrom xb (acc ++ [mkPoint xb x y]) os
  | (_, none) :: os => (if acc = [] then [] else [acc]) ++ specRunsFrom xb [] os

theorem specRunsFrom_ne_nil (xb : Bool) (acc : List Pt)
    (os : List (ℚ × Option ℚ)) : specRunsFrom xb acc os ≠ [] := by
  induction os generalizing acc with
  | nil => simp [specRunsFrom]
  | cons o os ih =>
    rcases o with ⟨x, _ | y⟩
    · rw [specRunsFrom]
      simp [ih]
    · rw [specRunsFrom]
      exact ih _

/-- Every polyline before the final unconditional flush is non-empty. -/
theorem specRunsFrom_dropLast_ne_nil (xb : Bool) (acc : List Pt)
    (os : List (ℚ × Option ℚ)) :
    ∀ p ∈ (specRunsFrom xb acc os).dropLast, p ≠ [] := by
  induction os generalizing acc with
  | nil => simp [specRunsFrom]
  | cons o os ih =>
    rcases o with ⟨x, _ | y⟩
    · rw [specRunsFrom]
      rw [List.dropLast_append_of_ne_nil _ (specRunsFrom_ne_nil xb [] os)]
      intro p hp
      rcases List.mem_append.mp hp with h | h
      · rcases Classical.em (acc = []) with hacc | hacc
        · rw [if_pos hacc] at h
          simp at h
        · rw [if_neg hacc] at h
          simp at h
          rw [h]
          exact hacc
      · exact ih [] p h
    · rw [specRunsFrom]
      exact ih _

/-- Flattening the grouped polylines recovers exactly the defined samples'
points, in sample order: no defined sample is dropped and none reordered. -/
theorem specRunsFrom_flatten (xb : Bool) (acc : List Pt)
    (os : List (ℚ × Option ℚ)) :
    (specRunsFrom xb acc os).flatten =
      acc ++ os.filterMap fun o => o.2.map fun y => mkPoint xb o.1 y := by
  induction os generalizing acc with
  | nil => simp [specRunsFrom]
  | cons o os ih =>
    rcases o with ⟨x, _ | y⟩
    · rw [specRunsFrom, List.flatten_append, ih []]
      rcases Classical.em (acc = []) with hacc | hacc
      · rw [if_pos hacc, hacc]
        simp [List.filterMap_cons]
      · rw [if_neg hacc]
        simp [List.filterMap_cons]
    · rw [specRunsFrom, ih]
      simp [List.filterMap_cons]

/-- An undefined sample splits the grouping: the polylines handed after it
are exactly those of the remaining samples — no polyline (and hence no
stroked segment) spans an undefined sample. -/
theorem specRunsFrom_break (xb : Bool) (acc : List Pt)
    (os₁ : List (ℚ × Option ℚ)) (x0 : ℚ) (os₂ : List (ℚ × Option ℚ)) :
    specRunsFrom xb acc (os₁ ++ (x0, none) :: os₂) =
      (specRunsFrom xb acc (os₁ ++ [(x0, none)])).dropLast ++
        specRunsFrom xb [] os₂ := by
  induction os₁ generalizing acc with
  | nil =>
    simp only [List.nil_append, specRunsFrom]
    rw [List.dropLast_concat]
  | cons o os₁ ih =>
    rcases o with ⟨x, _ | y⟩
    · simp only [List.cons_append, specRunsFrom, List.append_eq]
      rw [ih [], List.dropLast_append_of_ne_nil _ (specRunsFrom_ne_nil xb [] _),
        List.append_assoc]
    · simp only [List.cons_append, specRunsFrom, List.append_eq]
      exact ih _

/-- The sampling loop computes exactly the specification-side grouping of
its per-sample outcomes, whenever it completes without an assertion. -/
theorem runSamples_eq_specRuns (sq : ℚ → ℚ) (xb : Bool) (fv : String)
    (f : Expression) (xs : List ℚ) (acc : List Pt) (out : List (List Pt))
    (h : runSamples sq xb fv f xs acc = some out) :
    out = specRunsFrom xb acc
      (xs.map fun x => (x, (sampleValue sq fv f x).join)) := by
  induction xs generalizing acc out with
  | nil =>
    rw [runSamples] at h
    simp at h
    simp [specRunsFrom, h.symm]
  | cons x tl ih =>
    rw [runSamples] at h
    rw [List.map_cons]
    revert h
    cases hm : simplify sq f (bindVar fv (some x)) with
    | nil => intro h; simp at h
    | cons e rest =>
      cases rest with
      | cons e2 rest2 => intro h; cases e <;> simp at h
      | nil =>
        cases e with
        | Value output =>
          intro h
          have hsv : sampleValue sq fv f x = some output := by
            rw [sampleValue, hm]
          rw [hsv, show Option.join (some output) = output from rfl]
          cases output with
          | none =>
            rw [specRunsFrom]
            revert h
            cases hr : runSamples sq xb fv f tl [] with
            | none => intro h; simp at h
            | some r =>
              intro h
              simp only [Option.map_some', Option.some.injEq] at h
              rw [← ih [] r hr, ← h]
              rcases Classical.em (acc = []) with hacc | hacc
              · rw [if_pos hacc, hacc]
                simp
              · rw [if_neg hacc]
                have hlen : 1 ≤ acc.length := by
                  cases acc
                  · exact absurd rfl hacc
                  · simp
                rw [if_pos hlen]
                rfl
          | some y =>
            rw [specRunsFrom]
            exact ih _ _ h
        | Variable n => intro h; simp at h
        | Add a b => intro h; simp at h
        | Divide a b => intro h; simp at h
        | RestrictTo v r => intro h; simp at h
        | PrincipalSqrt v => intro h; simp at h
        | Sqrt v => intro h; simp at h

/-- `RestrictTo(Variable("x"), Extent(0, 1))`: a one-variable expression used
for concrete sampler runs (defined on `[0, 1]`, undefined outside). -/
def clampX : Expression := .RestrictTo (.Variable "x") (Extent.make 0 1)

theorem clampX_eval (sq : ℚ → ℚ) (q : ℚ) :
    simplify sq clampX (bindVar "x" (some q)) =
      [.Value (if 0 ≤ q ∧ q ≤ 1 then some q else none)] := by
  have hmake : Extent.make 0 1 = ⟨0, 1⟩ := by
    rw [Extent.make, if_pos (by norm_num)]
  have hx : simplify sq (.Variable "x") (bindVar "x" (some q)) =
      [.Value (some q)] := by
    rw [simplify_variable]
    rfl
  rw [clampX, simplify_restrictTo, hx]
  have hcond : ((⟨0, 1⟩ : Extent).contains q = true) ↔ (0 ≤ q ∧ q ≤ 1) := by
    simp [Extent.contains]
  have hfold : restrictOp (Extent.make 0 1) (.Value (some q)) =
      .Value (if 0 ≤ q ∧ q ≤ 1 then some q else none) := by
    show (if (Extent.make 0 1).contains q then Expression.Value (some q)
      else Expression.Value none) = _
    rw [hmake]
    rcases Classical.em (0 ≤ q ∧ q ≤ 1) with h | h
    · rw [if_pos (hcond.mpr h), if_pos h]
    · rw [if_neg (fun hh => h (hcond.mp hh)), if_neg h]
  simp only [List.map_cons, List.map_nil, hfold]

/-- The run of `clampX` over the samples `0, 1, 2`: samples `0` and `1` are
defined, sample `2` is undefined and closes the two-point polyline; the
final unconditional flush then hands an **empty** polyline. -/
theorem clampX_run (sq : ℚ → ℚ) :
    runSamples sq true "x" clampX [0, 1, 2] [] =
      some [[⟨0, 0⟩, ⟨1, 1⟩], []] := by
  have e0 : simplify sq clampX (bindVar "x" (some 0)) = [.Value (some 0)] := by
    rw [clampX_eval, if_pos (by norm_num)]
  have e1 : simplify sq clampX (bindVar "x" (some 1)) = [.Value (some 1)] := by
    rw [clampX_eval, if_pos (by norm_num)]
  have e2 : simplify sq clampX (bindVar "x" (some 2)) = [.Value none] := by
    rw [clampX_eval, if_neg (by norm_num)]
  rw [runSamples, e0]
  dsimp only
  rw [runSamples, e1]
  dsimp only
  rw [runSamples, e2]
  dsimp only
  rw [runSamples]
  simp [mkPoint]

/-- C8 counterexample: drawing `clampX` over `[0, 2]` with step `1` hands the
renderer the polyline list `[[(0,0), (1,1)], []]` — the final unconditional
flush after the last (undefined) sample hands an **empty** polyline, so not
every handed polyline is non-empty. -/
theorem c8_counterexample :
    drawMathFunction sqZero "x" true clampX 0 2 1 =
        some [[⟨0, 0⟩, ⟨1, 1⟩], []] ∧
    ¬ ∀ p ∈ [[(⟨0, 0⟩ : Pt), ⟨1, 1⟩], ([] : List Pt)], p ≠ [] := by
  constructor
  · have hbase : simplify sqZero clampX emptySubst = [clampX] := by
      have hx0 : simplify sqZero (.Variable "x") emptySubst = [.Variable "x"] := by
        rw [simplify_variable]
        rfl
      rw [clampX, simplify_restrictTo, hx0]
      rfl
    have hxs : sampleXs 0 2 1 = [0, 1, 2] := by
      have hc : sampleCount 0 2 1 = 3 := by
        rw [sampleCount, if_pos (by norm_num)]
        have h2 : ((2 : ℚ) - 0) / 1 = ((2 : ℤ) : ℚ) := by norm_num
        rw [h2, Int.floor_intCast]
        rfl
      rw [sampleXs, hc, show List.range 3 = [0, 1, 2] from rfl]
      norm_num
    rw [drawMathFunction, hbase, hxs]
    simp only [List.mapM_cons, List.mapM_nil, clampX_run sqZero,
      Option.pure_def, Option.bind_eq_bind, Option.bind_some, Option.map_some,
      List.flatten]
    simp
  · intro hall
    exact (hall [] (by simp)) rfl

/-- C8 amended: whenever the sampling loop completes without an assertion,
the polyline list it hands over is exactly the specification-side grouping
of its per-sample outcomes; every polyline before the final flush is
non-empty (an undefined sample emits the closed polyline only when it has at
least one point); the flattened polylines are exactly the defined samples'
points in sample order; and an undefined sample splits the output, so no
polyline (hence no stroked segment) spans it.  Only the final unconditional
flush may hand an empty polyline. -/
theorem c8_amended (sq : ℚ → ℚ) (xb : Bool) (fv : String) (f : Expression)
    (xs : List ℚ) (out : List (List Pt))
    (h : runSamples sq xb fv f xs [] = some out) :
    out = specRunsFrom xb []
        (xs.map fun x => (x, (sampleValue sq fv f x).join)) ∧
    (∀ p ∈ out.dropLast, p ≠ []) ∧
    out.flatten = (xs.map fun x => (x, (sampleValue sq fv f x).join)).filterMap
        (fun o => o.2.map fun y => mkPoint xb o.1 y) ∧
    ∀ os₁ x0 os₂,
      (xs.map fun x => (x, (sampleValue sq fv f x).join)) =
          os₁ ++ (x0, none) :: os₂ →
      out = (specRunsFrom xb [] (os₁ ++ [(x0, none)])).dropLast ++
        specRunsFrom xb [] os₂ := by
  have hchar := runSamples_eq_specRuns sq xb fv f xs [] out h
  refine ⟨hchar, ?_, ?_, ?_⟩
  · rw [hchar]
    exact specRunsFrom_dropLast_ne_nil xb [] _
  · rw [hchar, specRunsFrom_flatten]
    simp
  · intro os₁ x0 os₂ hsplit
    rw [hchar, hsplit]
    exact specRunsFrom_break xb [] os₁ x0 os₂

/-- Witness for C8 amended at the concrete `clampX` run over samples
`0, 1, 2`. -/
theorem c8_amended_witness :
    ([[(⟨0, 0⟩ : Pt), ⟨1, 1⟩], ([] : List Pt)] = specRunsFrom true []
        (([0, 1, 2] : List ℚ).map fun x =>
          (x, (sampleValue sqZero "x" clampX x).join))) ∧
    (∀ p ∈ ([[(⟨0, 0⟩ : Pt), ⟨1, 1⟩], ([] : List Pt)]).dropLast, p ≠ []) ∧
    ([[(⟨0, 0⟩ : Pt), ⟨1, 1⟩], ([] : List Pt)]).flatten =
      (([0, 1, 2] : List ℚ).map fun x =>
        (x, (sampleValue sqZero "x" clampX x).join)).filterMap
          (fun o => o.2.map fun y => mkPoint true o.1 y) ∧
    ∀ os₁ x0 os₂,
      (([0, 1, 2] : List ℚ).map fun x =>
          (x, (sampleValue sqZero "x" clampX x).join)) =
          os₁ ++ (x0, none) :: os₂ →
      [[(⟨0, 0⟩ : Pt), ⟨1, 1⟩], ([] : List Pt)] =
        (specRunsFrom true [] (os₁ ++ [(x0, none)])).dropLast ++
          specRunsFrom true [] os₂ :=
  c8_amended sqZero true "x" clampX [0, 1, 2] [[⟨0, 0⟩, ⟨1, 1⟩], []]
    (clampX_run sqZero)

/-- The `Parabola` shape of draw.ts: a dependent-axis choice (the source
stores the string `"x"` or `"y"`), a vertex, and a second point on the
curve. -/
structure Parabola where
  dependent_axis : String
  vertex : Pt
  point : Pt

/-- `Parabola.a`:
`[numerator, denominator] = (dependent_axis === "x") ? [x_difference, y_difference] : [y_difference, x_difference]`
followed by `numerator / (denominator * denominator)`. -/
def Parabola.a (p : Parabola) : ℚ :=
  let x_difference := p.point.x - p.vertex.x
  let y_difference := p.point.y - p.vertex.y
  let nd := if p.dependent_axis = "x" then (x_difference, y_difference)
    else (y_difference, x_difference)
  nd.1 / (nd.2 * nd.2)

/-- The offset along the dependent axis between the second point and the
vertex. -/
def Parabola.dependentOffset (p : Parabola) : ℚ :=
  if p.dependent_axis = "x" then p.point.x - p.vertex.x
  else p.point.y - p.vertex.y

/-- The offset along the independent axis between the second point and the
vertex. -/
def Parabola.independentOffset (p : Parabola) : ℚ :=
  if p.dependent_axis = "x" then p.point.y - p.vertex.y
  else p.point.x - p.vertex.x

/-- The coefficient formula exactly as the claim words it: the ratio of the
offset along the *independent* axis to the squared offset along the
*dependent* axis. -/
def parabolaCoefficientClaimed (p : Parabola) : ℚ :=
  p.independentOffset / (p.dependentOffset * p.dependentOffset)

/-- The coefficient formula with the two axes exchanged: the ratio of the
offset along the *dependent* axis to the squared offset along the
*independent* axis. -/
def parabolaCoefficientSpec (p : Parabola) : ℚ :=
  p.dependentOffset / (p.independentOffset * p.independentOffset)

/-- C9 counterexample: for the vertical parabola with vertex `(0, 0)`
through `(1, 2)`, the source computes `a = 2/1² = 2`, while the claim's
formula (independent offset over squared dependent offset) gives
`1/2² = 1/4`. -/
theorem c9_counterexample :
    Parabola.a ⟨"y", ⟨0, 0⟩, ⟨1, 2⟩⟩ = 2 ∧
    parabolaCoefficientClaimed ⟨"y", ⟨0, 0⟩, ⟨1, 2⟩⟩ = 1/4 ∧
    Parabola.a ⟨"y", ⟨0, 0⟩, ⟨1, 2⟩⟩ ≠
      parabolaCoefficientClaimed ⟨"y", ⟨0, 0⟩, ⟨1, 2⟩⟩ := by
  have hne : ("y" : String) = "x" ↔ False := by simp
  refine ⟨?_, ?_, ?_⟩
  · norm_num [Parabola.a, hne]
  · norm_num [parabolaCoefficientClaimed, Parabola.independentOffset,
      Parabola.dependentOffset, hne]
  · norm_num [Parabola.a, parabolaCoefficientClaimed,
      Parabola.independentOffset, Parabola.dependentOffset, hne]

/-- C9 amended: the derived coefficient equals the ratio of the offset along
the *dependent* axis between the second point and the vertex to the squared
offset along the *independent* axis between them. -/
theorem c9_amended (p : Parabola) :
    Parabola.a p = parabolaCoefficientSpec p := by
  rcases Classical.em (p.dependent_axis = "x") with h | h <;>
    simp [Parabola.a, parabolaCoefficientSpec, Parabola.dependentOffset,
      Parabola.independentOffset, h]
end DesmosDraw
